import Mathlib

/-!
Shallow embedding of the regularized 2D grid-smoothing core of `smooth2.py`
(functions `build_diff_matrix`, `build_regularization`, `smooth2`,
`compute_error`), over exact rationals.

Modelling conventions:
* A matrix is a total function `ℕ → ℕ → ℚ`; each definition is only
  meaningful on the index range of the scipy object it models, and every
  consumer below queries it only inside that range.
* scipy sparse objects and numpy arrays are value-indexed exactly as the
  flat/C-order layouts the library uses:
  - `numpy.ndarray.flatten` of an `(n1w, n2w)` array is C-order
    (last axis fastest): entry `k ↦ sub (k / n2w) (k % n2w)`;
  - `scipy.sparse.kron A B` with `B` of block size `p × p` has flat entry
    `(r, c) ↦ A (r / p) (c / p) * B (r % p) (c % p)`;
  - `reshape (n1w, n2w)` of the solution vector is C-order:
    `(i, j) ↦ s (i * n2w + j)`.
* `scipy.sparse.diags` with offsets `[0, 1]` and shape `(n - 1, n)` succeeds for
  `n ≥ 1` (for `n = 1` it builds the empty `0 × 1` operator: every
  requested diagonal length `min (m + offset) (n - offset) (min m n)` is
  `0 ≥ 0`), and raises `ValueError` for `n = 0` (shape `(-1, 0)` makes the
  offset-0 diagonal length `-1 < 0`, "Offset 0 (index 0) out of bounds").
  Hence `build_diff_matrix` is `Option`-valued with `none` exactly at
  `n = 0`.
* `scipy.sparse.linalg.spsolve lhs f` is modelled relationally: a vector
  `s` with `lhs * s = f` on the system's index range.  Out-of-range values
  of `s` are never read by the rest of the pipeline.
* Python slice semantics for a nonnegative window
  `data[i1s:i1e, i2s:i2e]` on an `(n1, n2)` array: the extracted slice has
  `min i1e n1 - i1s` rows (truncated ℕ subtraction: empty when the start
  is at or beyond the clipped end) starting at row `i1s`, and likewise for
  columns; the same region is written back by
  `result[i1s:i1e, i2s:i2e] = smoothed_sub`.
-/

namespace SmoothTwo

/-- Vectors: total ℚ-valued functions on ℕ, meaningful on a stated range. -/
abbrev Vec := ℕ → ℚ

/-- Matrices: total ℚ-valued functions, meaningful on a stated shape. -/
abbrev Mat := ℕ → ℕ → ℚ

/-- `scipy.sparse.eye`: the identity matrix (any size, entries read in range). -/
def eyeM : Mat := fun i j => if i = j then 1 else 0

/-- Entrywise sum of two sparse matrices (`+` on scipy matrices). -/
def addM (A B : Mat) : Mat := fun i j => A i j + B i j

/-- Scalar multiple of a sparse matrix (`r * R` on scipy matrices). -/
def smulM (r : ℚ) (A : Mat) : Mat := fun i j => r * A i j

/-- Matrix transpose (`.T` on scipy matrices). -/
def transposeM (A : Mat) : Mat := fun i j => A j i

/-- Matrix product `A @ B` with inner dimension `k`. -/
def matMulM (k : ℕ) (A B : Mat) : Mat :=
  fun i j => ∑ l ∈ Finset.range k, A i l * B l j

/-- `scipy.sparse.kron A B` for a `p × p` second factor `B`, in the flat
index convention scipy uses: entry `(r, c)` is `A (r/p) (c/p) * B (r%p) (c%p)`. -/
def kronM (p : ℕ) (A B : Mat) : Mat :=
  fun r c => A (r / p) (c / p) * B (r % p) (c % p)

/-- Matrix–vector product over index range `n`. -/
def mulVecM (n : ℕ) (A : Mat) (x : Vec) : Vec :=
  fun i => ∑ j ∈ Finset.range n, A i j * x j

/-- `build_diff_matrix(n)` from `smooth2.py`:
`diags([-1, 1], [0, 1], shape=(n - 1, n), format='csr')`.
Returns the `(n-1) × n` forward-difference operator; for `n = 0` the scipy
call raises `ValueError` (requested shape `(-1, 0)`), modelled as `none`. -/
def build_diff_matrix (n : ℕ) : Option Mat :=
  if n = 0 then none
  else some (fun i j => if j = i then -1 else if j = i + 1 then 1 else 0)

/-- `build_regularization(n1, n2, r1, r2)` from `smooth2.py`:
`r1 * kron(I2, D1.T @ D1) + r2 * kron(D2.T @ D2, I1)` where
`D1 = build_diff_matrix(n1)`, `D2 = build_diff_matrix(n2)`,
`I1 = eye(n1)`, `I2 = eye(n2)`.  Both Kronecker factors on the right have
block size `n1`.  A `ValueError` from either `build_diff_matrix` call
propagates (`none`). -/
def build_regularization (n1 n2 : ℕ) (r1 r2 : ℚ) : Option Mat :=
  (build_diff_matrix n1).bind fun D1 =>
    (build_diff_matrix n2).map fun D2 =>
      addM (smulM r1 (kronM n1 eyeM (matMulM (n1 - 1) (transposeM D1) D1)))
           (smulM r2 (kronM n1 (matMulM (n2 - 1) (transposeM D2) D2) eyeM))

/-- A smoothing window `[i1_start, i1_end, i2_start, i2_end]` with
nonnegative components (the `win` argument of `smooth2`). -/
structure Win where
  i1s : ℕ
  i1e : ℕ
  i2s : ℕ
  i2e : ℕ

/-- Number of rows of `data[i1s:i1e, i2s:i2e]` under Python slice
semantics on an array with `n1` rows. -/
def n1wOf (n1 : ℕ) (w : Win) : ℕ := min w.i1e n1 - w.i1s

/-- Number of columns of `data[i1s:i1e, i2s:i2e]` under Python slice
semantics on an array with `n2` columns. -/
def n2wOf (n2 : ℕ) (w : Win) : ℕ := min w.i2e n2 - w.i2s

/-- `sub_data = data[i1s:i1e, i2s:i2e]`: the extracted sub-grid, read on
shape `(n1wOf n1 w, n2wOf n2 w)`. -/
def subGrid (g : Mat) (w : Win) : Mat := fun i j => g (w.i1s + i) (w.i2s + j)

/-- `f = sub_data.flatten()`: C-order (last-axis-fastest) flattening of an
`(·, n2w)`-shaped array. -/
def flattenC (n2w : ℕ) (sub : Mat) : Vec := fun k => sub (k / n2w) (k % n2w)

/-- `s.reshape(n1_win, n2_win)`: C-order unflattening of the solution. -/
def unflattenC (n2w : ℕ) (s : Vec) : Mat := fun i j => s (i * n2w + j)

/-- `s = spsolve(lhs, f)` modelled relationally: `s` solves the `N × N`
system `A s = f`. -/
def IsSolution (N : ℕ) (A : Mat) (f s : Vec) : Prop :=
  ∀ i < N, mulVecM N A s i = f i

/-- `result = np.copy(data); result[i1s:i1e, i2s:i2e] = smoothed_sub`:
the window region (clipped to the array bounds, per slice semantics) is
overwritten with `sm`, everything else keeps the values of `g`. -/
def reinsert (n1 n2 : ℕ) (g : Mat) (w : Win) (sm : Mat) : Mat := fun i j =>
  if w.i1s ≤ i ∧ i < min w.i1e n1 ∧ w.i2s ≤ j ∧ j < min w.i2e n2 then
    sm (i - w.i1s) (j - w.i2s)
  else g i j

/-- The full call `smooth2(data, r1, r2, win)` on an `(n1, n2)` grid,
relationally: `res` is a possible return value.  It requires the
`build_regularization` call to succeed (otherwise the Python call raises)
and `s` to be the `spsolve` solution of `(eye(N) + R) s = f`. -/
def Smooth2 (n1 n2 : ℕ) (g : Mat) (r1 r2 : ℚ) (w : Win) (res : Mat) : Prop :=
  ∃ R s, build_regularization (n1wOf n1 w) (n2wOf n2 w) r1 r2 = some R ∧
    IsSolution (n1wOf n1 w * n2wOf n2 w) (addM eyeM R)
      (flattenC (n2wOf n2 w) (subGrid g w)) s ∧
    res = reinsert n1 n2 g w (unflattenC (n2wOf n2 w) s)

/-- The condition under which `smooth2` raises before reaching the solver:
`build_regularization` fails (a degenerate clipped window makes one of the
`build_diff_matrix` calls receive `0`). -/
def Smooth2Fails (n1 n2 : ℕ) (w : Win) (r1 r2 : ℚ) : Prop :=
  build_regularization (n1wOf n1 w) (n2wOf n2 w) r1 r2 = none

/-- A window that is valid per the specification's data model (§3):
`0 ≤ i1s < i1e ≤ n1` and `0 ≤ i2s < i2e ≤ n2`. -/
def ValidWin (n1 n2 : ℕ) (w : Win) : Prop :=
  w.i1s < w.i1e ∧ w.i1e ≤ n1 ∧ w.i2s < w.i2e ∧ w.i2e ≤ n2

instance (n1 n2 : ℕ) (w : Win) : Decidable (ValidWin n1 n2 w) :=
  inferInstanceAs (Decidable (_ ∧ _ ∧ _ ∧ _))

/-- The matrix payload of a successful `build_diff_matrix` call. -/
def diffM : Mat := fun i j => if j = i then -1 else if j = i + 1 then 1 else 0

/-- The Gram matrix `D.T @ D` of the `(n-1) × n` difference operator. -/
def gramM (n : ℕ) : Mat := matMulM (n - 1) (transposeM diffM) diffM

/-- The matrix payload of a successful `build_regularization` call. -/
def regM (n1 n2 : ℕ) (r1 r2 : ℚ) : Mat :=
  addM (smulM r1 (kronM n1 eyeM (gramM n1)))
       (smulM r2 (kronM n1 (gramM n2) eyeM))

/-- The assembled system matrix `lhs = eye(N) + R` of `smooth2`. -/
def sysM (n1 n2 : ℕ) (r1 r2 : ℚ) : Mat := addM eyeM (regM n1 n2 r1 r2)

theorem build_diff_matrix_pos {n : ℕ} (h : n ≠ 0) :
    build_diff_matrix n = some diffM := by
  unfold build_diff_matrix diffM
  rw [if_neg h]

theorem build_regularization_pos {n1 n2 : ℕ} (h1 : n1 ≠ 0) (h2 : n2 ≠ 0)
    (r1 r2 : ℚ) : build_regularization n1 n2 r1 r2 = some (regM n1 n2 r1 r2) := by
  simp [build_regularization, build_diff_matrix_pos h1, build_diff_matrix_pos h2,
    regM, gramM]

theorem build_regularization_none_iff (n1 n2 : ℕ) (r1 r2 : ℚ) :
    build_regularization n1 n2 r1 r2 = none ↔ n1 = 0 ∨ n2 = 0 := by
  rcases Nat.eq_zero_or_pos n1 with h1 | h1
  · simp [build_regularization, build_diff_matrix, h1]
  rcases Nat.eq_zero_or_pos n2 with h2 | h2
  · simp [build_regularization, build_diff_matrix, h1.ne', h2]
  · simp [build_regularization_pos h1.ne' h2.ne', h1.ne', h2.ne']

/-- Splitting a sum over `range (m * p)` into `m` consecutive blocks of
length `p` (the flat index of block `b`, offset `i` is `p * b + i`). -/
theorem sum_range_mul_eq (m p : ℕ) (h : ℕ → ℚ) :
    ∑ r ∈ Finset.range (m * p), h r
      = ∑ b ∈ Finset.range m, ∑ i ∈ Finset.range p, h (p * b + i) := by
  induction m with
  | zero => simp
  | succ m ih =>
      rw [Nat.succ_mul, Finset.sum_range_add, ih, Finset.sum_range_succ]
      simp [Nat.mul_comm]

/-- Flat Kronecker entries at block-decomposed indices. -/
theorem kronM_apply (p : ℕ) (A B : Mat) {b i c j : ℕ} (hi : i < p) (hj : j < p) :
    kronM p A B (p * b + i) (p * c + j) = A b c * B i j := by
  unfold kronM
  rw [Nat.mul_add_div (by omega), Nat.mul_add_div (by omega),
    Nat.div_eq_of_lt hi, Nat.div_eq_of_lt hj, Nat.mul_add_mod, Nat.mul_add_mod,
    Nat.mod_eq_of_lt hi, Nat.mod_eq_of_lt hj, Nat.add_zero, Nat.add_zero]

theorem mulVecM_eyeM {n : ℕ} (x : Vec) {i : ℕ} (hi : i < n) :
    mulVecM n eyeM x i = x i := by
  unfold mulVecM eyeM
  rw [Finset.sum_eq_single i]
  · simp
  · intro j _ hji
    simp [Ne.symm hji]
  · intro hni
    exact absurd (Finset.mem_range.mpr hi) hni

/-- The quadratic form `xᵀ A x` of an `N × N` matrix. -/
def quadForm (N : ℕ) (A : Mat) (x : Vec) : ℚ :=
  ∑ i ∈ Finset.range N, x i * mulVecM N A x i

theorem mulVecM_addM (n : ℕ) (A B : Mat) (x : Vec) (i : ℕ) :
    mulVecM n (addM A B) x i = mulVecM n A x i + mulVecM n B x i := by
  unfold mulVecM addM
  rw [← Finset.sum_add_distrib]
  exact Finset.sum_congr rfl fun j _ => by ring

theorem mulVecM_smulM (n : ℕ) (r : ℚ) (A : Mat) (x : Vec) (i : ℕ) :
    mulVecM n (smulM r A) x i = r * mulVecM n A x i := by
  unfold mulVecM smulM
  rw [Finset.mul_sum]
  exact Finset.sum_congr rfl fun j _ => by ring

theorem quadForm_addM (N : ℕ) (A B : Mat) (x : Vec) :
    quadForm N (addM A B) x = quadForm N A x + quadForm N B x := by
  unfold quadForm
  rw [← Finset.sum_add_distrib]
  exact Finset.sum_congr rfl fun i _ => by rw [mulVecM_addM]; ring

theorem quadForm_smulM (N : ℕ) (r : ℚ) (A : Mat) (x : Vec) :
    quadForm N (smulM r A) x = r * quadForm N A x := by
  unfold quadForm
  rw [Finset.mul_sum]
  exact Finset.sum_congr rfl fun i _ => by rw [mulVecM_smulM]; ring

theorem quadForm_eyeM (N : ℕ) (x : Vec) :
    quadForm N eyeM x = ∑ i ∈ Finset.range N, x i ^ 2 := by
  unfold quadForm
  refine Finset.sum_congr rfl fun i hi => ?_
  rw [mulVecM_eyeM x (Finset.mem_range.mp hi), sq]

/-- The quadratic form of the difference Gram matrix `D.T @ D` is the sum
of the squared first differences. -/
theorem quadForm_gramM (n : ℕ) (y : Vec) :
    (∑ i ∈ Finset.range n, ∑ j ∈ Finset.range n, y i * (gramM n i j * y j))
      = ∑ k ∈ Finset.range (n - 1), (∑ i ∈ Finset.range n, diffM k i * y i) ^ 2 := by
  unfold gramM matMulM transposeM
  have step : ∀ i ∈ Finset.range n, ∀ j ∈ Finset.range n,
      y i * ((∑ k ∈ Finset.range (n - 1), diffM k i * diffM k j) * y j)
        = ∑ k ∈ Finset.range (n - 1), (diffM k i * y i) * (diffM k j * y j) := by
    intro i _ j _
    rw [Finset.sum_mul, Finset.mul_sum]
    exact Finset.sum_congr rfl fun k _ => by ring
  calc ∑ i ∈ Finset.range n, ∑ j ∈ Finset.range n,
        y i * ((∑ k ∈ Finset.range (n - 1), diffM k i * diffM k j) * y j)
      = ∑ i ∈ Finset.range n, ∑ j ∈ Finset.range n,
          ∑ k ∈ Finset.range (n - 1), (diffM k i * y i) * (diffM k j * y j) :=
        Finset.sum_congr rfl fun i hi => Finset.sum_congr rfl fun j hj =>
          step i hi j hj
    _ = ∑ i ∈ Finset.range n, ∑ k ∈ Finset.range (n - 1),
          ∑ j ∈ Finset.range n, (diffM k i * y i) * (diffM k j * y j) :=
        Finset.sum_congr rfl fun i _ => Finset.sum_comm
    _ = ∑ k ∈ Finset.range (n - 1), ∑ i ∈ Finset.range n,
          ∑ j ∈ Finset.range n, (diffM k i * y i) * (diffM k j * y j) :=
        Finset.sum_comm
    _ = ∑ k ∈ Finset.range (n - 1), (∑ i ∈ Finset.range n, diffM k i * y i) ^ 2 := by
        refine Finset.sum_congr rfl fun k _ => ?_
        rw [sq, Finset.sum_mul]
        exact Finset.sum_congr rfl fun i _ => by rw [Finset.mul_sum]

/-- Quadratic form of `kron(I_{n2}, D1.T @ D1)` (flat indices, block size
`n1`): the sum over blocks of the squared first differences inside each
block. -/
theorem quadForm_kron_eye_gram (n1 n2 : ℕ) (x : Vec) :
    quadForm (n1 * n2) (kronM n1 eyeM (gramM n1)) x
      = ∑ b ∈ Finset.range n2, ∑ k ∈ Finset.range (n1 - 1),
          (∑ i ∈ Finset.range n1, diffM k i * x (n1 * b + i)) ^ 2 := by
  unfold quadForm mulVecM
  rw [show n1 * n2 = n2 * n1 from Nat.mul_comm n1 n2, sum_range_mul_eq n2 n1]
  refine Finset.sum_congr rfl fun b hb => ?_
  have inner : ∀ i ∈ Finset.range n1,
      x (n1 * b + i) * (∑ c ∈ Finset.range (n2 * n1),
          kronM n1 eyeM (gramM n1) (n1 * b + i) c * x c)
        = ∑ j ∈ Finset.range n1,
            x (n1 * b + i) * (gramM n1 i j * x (n1 * b + j)) := by
    intro i hi
    rw [sum_range_mul_eq n2 n1]
    have collapse : (∑ b' ∈ Finset.range n2, ∑ j ∈ Finset.range n1,
        kronM n1 eyeM (gramM n1) (n1 * b + i) (n1 * b' + j) * x (n1 * b' + j))
          = ∑ j ∈ Finset.range n1, gramM n1 i j * x (n1 * b + j) := by
      have step : ∀ b' ∈ Finset.range n2,
          (∑ j ∈ Finset.range n1,
              kronM n1 eyeM (gramM n1) (n1 * b + i) (n1 * b' + j) * x (n1 * b' + j))
            = if b = b' then ∑ j ∈ Finset.range n1, gramM n1 i j * x (n1 * b' + j)
              else 0 := by
        intro b' _
        have ptw : ∀ j ∈ Finset.range n1,
            kronM n1 eyeM (gramM n1) (n1 * b + i) (n1 * b' + j) * x (n1 * b' + j)
              = if b = b' then gramM n1 i j * x (n1 * b' + j) else 0 := by
          intro j hj
          rw [kronM_apply n1 _ _ (Finset.mem_range.mp hi) (Finset.mem_range.mp hj)]
          by_cases h : b = b' <;> simp [eyeM, h]
        rw [Finset.sum_congr rfl ptw]
        by_cases h : b = b' <;> simp [h]
      rw [Finset.sum_congr rfl step, Finset.sum_ite_eq]
      simp [hb]
    rw [collapse, Finset.mul_sum]
  rw [Finset.sum_congr rfl inner]
  exact quadForm_gramM n1 (fun t => x (n1 * b + t))

/-- Quadratic form of `kron(D2.T @ D2, I_{n1})` (flat indices, block size
`n1`): the sum over block offsets of the squared cross-block differences. -/
theorem quadForm_kron_gram_eye (n1 n2 : ℕ) (x : Vec) :
    quadForm (n1 * n2) (kronM n1 (gramM n2) eyeM) x
      = ∑ i ∈ Finset.range n1, ∑ k ∈ Finset.range (n2 - 1),
          (∑ b ∈ Finset.range n2, diffM k b * x (n1 * b + i)) ^ 2 := by
  unfold quadForm mulVecM
  rw [show n1 * n2 = n2 * n1 from Nat.mul_comm n1 n2, sum_range_mul_eq n2 n1]
  have outer : ∀ b ∈ Finset.range n2, ∀ i ∈ Finset.range n1,
      x (n1 * b + i) * (∑ c ∈ Finset.range (n2 * n1),
          kronM n1 (gramM n2) eyeM (n1 * b + i) c * x c)
        = ∑ b' ∈ Finset.range n2,
            x (n1 * b + i) * (gramM n2 b b' * x (n1 * b' + i)) := by
    intro b _ i hi
    rw [sum_range_mul_eq n2 n1]
    have collapse : (∑ b' ∈ Finset.range n2, ∑ j ∈ Finset.range n1,
        kronM n1 (gramM n2) eyeM (n1 * b + i) (n1 * b' + j) * x (n1 * b' + j))
          = ∑ b' ∈ Finset.range n2, gramM n2 b b' * x (n1 * b' + i) := by
      refine Finset.sum_congr rfl fun b' _ => ?_
      have ptw : ∀ j ∈ Finset.range n1,
          kronM n1 (gramM n2) eyeM (n1 * b + i) (n1 * b' + j) * x (n1 * b' + j)
            = if i = j then gramM n2 b b' * x (n1 * b' + j) else 0 := by
        intro j hj
        rw [kronM_apply n1 _ _ (Finset.mem_range.mp hi) (Finset.mem_range.mp hj)]
        by_cases h : i = j <;> simp [eyeM, h]
      rw [Finset.sum_congr rfl ptw, Finset.sum_ite_eq]
      simp [hi]
    rw [collapse, Finset.mul_sum]
  rw [Finset.sum_congr rfl (fun b hb => Finset.sum_congr rfl (outer b hb))]
  rw [Finset.sum_comm]
  refine Finset.sum_congr rfl fun i _ => ?_
  exact quadForm_gramM n2 (fun t => x (n1 * t + i))

/-- Identity domination: `xᵀ (I + R) x ≥ xᵀ x` for nonnegative weights. -/
theorem quadForm_sysM_ge (n1 n2 : ℕ) {r1 r2 : ℚ} (h1 : 0 ≤ r1) (h2 : 0 ≤ r2)
    (x : Vec) :
    ∑ i ∈ Finset.range (n1 * n2), x i ^ 2
      ≤ quadForm (n1 * n2) (sysM n1 n2 r1 r2) x := by
  unfold sysM regM
  rw [quadForm_addM, quadForm_addM, quadForm_smulM, quadForm_smulM, quadForm_eyeM]
  have hk1 : 0 ≤ quadForm (n1 * n2) (kronM n1 eyeM (gramM n1)) x := by
    rw [quadForm_kron_eye_gram]
    exact Finset.sum_nonneg fun b _ => Finset.sum_nonneg fun k _ => sq_nonneg _
  have hk2 : 0 ≤ quadForm (n1 * n2) (kronM n1 (gramM n2) eyeM) x := by
    rw [quadForm_kron_gram_eye]
    exact Finset.sum_nonneg fun i _ => Finset.sum_nonneg fun k _ => sq_nonneg _
  nlinarith [mul_nonneg h1 hk1, mul_nonneg h2 hk2]

theorem gramM_symm (n : ℕ) (i j : ℕ) : gramM n i j = gramM n j i := by
  unfold gramM matMulM transposeM
  exact Finset.sum_congr rfl fun k _ => by ring

/-- The assembled system matrix is symmetric. -/
theorem sysM_symm (n1 n2 : ℕ) (r1 r2 : ℚ) (r c : ℕ) :
    sysM n1 n2 r1 r2 r c = sysM n1 n2 r1 r2 c r := by
  simp only [sysM, addM, regM, smulM, kronM, eyeM]
  rw [gramM_symm n1 (r % n1) (c % n1), gramM_symm n2 (r / n1) (c / n1)]
  simp [eq_comm]

theorem mulVecM_sub (n : ℕ) (A : Mat) (s t : Vec) (i : ℕ) :
    mulVecM n A (fun k => s k - t k) i = mulVecM n A s i - mulVecM n A t i := by
  unfold mulVecM
  rw [← Finset.sum_sub_distrib]
  exact Finset.sum_congr rfl fun j _ => by ring

/-- Solutions of the assembled system are unique on the index range
whenever the weights are nonnegative. -/
theorem isSolution_unique {n1 n2 : ℕ} {r1 r2 : ℚ} (h1 : 0 ≤ r1) (h2 : 0 ≤ r2)
    {f s t : Vec} (hs : IsSolution (n1 * n2) (sysM n1 n2 r1 r2) f s)
    (ht : IsSolution (n1 * n2) (sysM n1 n2 r1 r2) f t) :
    ∀ k < n1 * n2, s k = t k := by
  have hzero : ∀ i < n1 * n2,
      mulVecM (n1 * n2) (sysM n1 n2 r1 r2) (fun k => s k - t k) i = 0 := by
    intro i hi
    rw [mulVecM_sub, hs i hi, ht i hi, sub_self]
  have hq : quadForm (n1 * n2) (sysM n1 n2 r1 r2) (fun k => s k - t k) = 0 := by
    unfold quadForm
    refine Finset.sum_eq_zero fun i hi => ?_
    rw [hzero i (Finset.mem_range.mp hi), mul_zero]
  have hle : ∑ i ∈ Finset.range (n1 * n2), (s i - t i) ^ 2 ≤ 0 :=
    hq ▸ quadForm_sysM_ge n1 n2 h1 h2 (fun k => s k - t k)
  have hsum : ∑ i ∈ Finset.range (n1 * n2), (s i - t i) ^ 2 = 0 :=
    le_antisymm hle (Finset.sum_nonneg fun i _ => sq_nonneg _)
  intro k hk
  have hk2 : (s k - t k) ^ 2 = 0 :=
    (Finset.sum_eq_zero_iff_of_nonneg fun i _ => sq_nonneg (s i - t i)).mp hsum
      k (Finset.mem_range.mpr hk)
  have h0 : s k - t k = 0 := by
    nlinarith [hk2, sq_nonneg (s k + t k)]
  linarith [h0]

/-- The assembled system matrix as a `Fin`-indexed Mathlib matrix. -/
def sysFin (n1 n2 : ℕ) (r1 r2 : ℚ) :
    Matrix (Fin (n1 * n2)) (Fin (n1 * n2)) ℚ :=
  Matrix.of fun i j => sysM n1 n2 r1 r2 i j

/-- Extension of a `Fin`-indexed vector by zero. -/
def extVec (N : ℕ) (v : Fin N → ℚ) : Vec :=
  fun k => if h : k < N then v ⟨k, h⟩ else 0

theorem sysFin_mulVec (n1 n2 : ℕ) (r1 r2 : ℚ) (v : Fin (n1 * n2) → ℚ)
    (i : Fin (n1 * n2)) :
    (sysFin n1 n2 r1 r2).mulVec v i
      = mulVecM (n1 * n2) (sysM n1 n2 r1 r2) (extVec (n1 * n2) v) i := by
  unfold mulVecM
  rw [← Fin.sum_univ_eq_sum_range
    (fun j => sysM n1 n2 r1 r2 i j * extVec (n1 * n2) v j) (n1 * n2)]
  unfold Matrix.mulVec Matrix.dotProduct sysFin extVec
  refine Finset.sum_congr rfl fun j _ => ?_
  simp [j.isLt]

theorem sysFin_injective (n1 n2 : ℕ) {r1 r2 : ℚ} (h1 : 0 ≤ r1) (h2 : 0 ≤ r2) :
    Function.Injective (sysFin n1 n2 r1 r2).mulVecLin := by
  intro u v huv
  have huv' : (sysFin n1 n2 r1 r2).mulVec u = (sysFin n1 n2 r1 r2).mulVec v := by
    simpa [Matrix.mulVecLin_apply] using huv
  have hs : IsSolution (n1 * n2) (sysM n1 n2 r1 r2)
      (extVec (n1 * n2) ((sysFin n1 n2 r1 r2).mulVec u)) (extVec (n1 * n2) u) := by
    intro i hi
    rw [← sysFin_mulVec n1 n2 r1 r2 u ⟨i, hi⟩]
    unfold extVec
    rw [dif_pos hi]
  have ht : IsSolution (n1 * n2) (sysM n1 n2 r1 r2)
      (extVec (n1 * n2) ((sysFin n1 n2 r1 r2).mulVec u)) (extVec (n1 * n2) v) := by
    intro i hi
    rw [← sysFin_mulVec n1 n2 r1 r2 v ⟨i, hi⟩, huv']
    unfold extVec
    rw [dif_pos hi]
  funext j
  have h := isSolution_unique h1 h2 hs ht j j.isLt
  unfold extVec at h
  rwa [dif_pos j.isLt, dif_pos j.isLt] at h

/-- The assembled system is uniquely solvable for every right-hand side. -/
theorem sysFin_existsUnique (n1 n2 : ℕ) {r1 r2 : ℚ} (h1 : 0 ≤ r1) (h2 : 0 ≤ r2)
    (f : Fin (n1 * n2) → ℚ) : ∃! v, (sysFin n1 n2 r1 r2).mulVec v = f := by
  have hinj := sysFin_injective n1 n2 h1 h2
  obtain ⟨v, hv⟩ := LinearMap.injective_iff_surjective.mp hinj f
  refine ⟨v, by simpa [Matrix.mulVecLin_apply] using hv, fun u hu => hinj ?_⟩
  rw [Matrix.mulVecLin_apply, Matrix.mulVecLin_apply, hu, ← hv,
    Matrix.mulVecLin_apply]

/-- Existence of an `spsolve` solution at the flat-function level. -/
theorem exists_isSolution (n1 n2 : ℕ) {r1 r2 : ℚ} (h1 : 0 ≤ r1) (h2 : 0 ≤ r2)
    (f : Vec) : ∃ s, IsSolution (n1 * n2) (sysM n1 n2 r1 r2) f s := by
  obtain ⟨v, hv, -⟩ := sysFin_existsUnique n1 n2 h1 h2 (fun i => f i)
  refine ⟨extVec (n1 * n2) v, fun i hi => ?_⟩
  have := congrFun hv ⟨i, hi⟩
  rw [sysFin_mulVec] at this
  exact this

/-- A `smooth2` call with nonnegative coefficients and a nonempty clipped
window always produces a result. -/
theorem smooth2_exists (n1 n2 : ℕ) (g : Mat) {r1 r2 : ℚ} (h1 : 0 ≤ r1)
    (h2 : 0 ≤ r2) (w : Win) (hw1 : n1wOf n1 w ≠ 0) (hw2 : n2wOf n2 w ≠ 0) :
    ∃ res, Smooth2 n1 n2 g r1 r2 w res := by
  obtain ⟨s, hsol⟩ := exists_isSolution (n1wOf n1 w) (n2wOf n2 w) h1 h2
    (flattenC (n2wOf n2 w) (subGrid g w))
  exact ⟨_, regM (n1wOf n1 w) (n2wOf n2 w) r1 r2, s,
    build_regularization_pos hw1 hw2 r1 r2, hsol, rfl⟩

theorem validWin_n1w {n1 n2 : ℕ} {w : Win} (hw : ValidWin n1 n2 w) :
    n1wOf n1 w ≠ 0 := by
  obtain ⟨a, b, -, -⟩ := hw
  unfold n1wOf
  omega

theorem validWin_n2w {n1 n2 : ℕ} {w : Win} (hw : ValidWin n1 n2 w) :
    n2wOf n2 w ≠ 0 := by
  obtain ⟨-, -, c, d⟩ := hw
  unfold n2wOf
  omega

theorem mulVecM_congr (n : ℕ) {A B : Mat} (h : ∀ i j, A i j = B i j)
    (x : Vec) (i : ℕ) : mulVecM n A x i = mulVecM n B x i :=
  Finset.sum_congr rfl fun j _ => by rw [h]

theorem sysM_zero_coeff (n1 n2 : ℕ) (i j : ℕ) : sysM n1 n2 0 0 i j = eyeM i j := by
  simp [sysM, regM, addM, smulM]

/-- With both coefficients zero the assembled system is `I x = f`, so the
solution equals the right-hand side on the index range. -/
theorem isSolution_zero_coeff {n1 n2 : ℕ} {f s : Vec}
    (h : IsSolution (n1 * n2) (sysM n1 n2 0 0) f s) :
    ∀ k < n1 * n2, s k = f k := by
  intro k hk
  have hk' := h k hk
  rw [mulVecM_congr (n1 * n2) (sysM_zero_coeff n1 n2) s k,
    mulVecM_eyeM s hk] at hk'
  exact hk'

/-- Concrete smoothing instance shared by witnesses: the 1×1 all-twos grid
with zero coefficients over its full window returns itself. -/
theorem smooth2_one_one :
    Smooth2 1 1 (fun _ _ => (2:ℚ)) 0 0 ⟨0, 1, 0, 1⟩ (fun _ _ => (2:ℚ)) := by
  refine ⟨regM 1 1 0 0, fun _ => 2,
    build_regularization_pos one_ne_zero one_ne_zero 0 0, ?_, ?_⟩
  · intro i hi
    have hi' : i < 1 := hi
    have hz : i = 0 := by omega
    subst hz
    norm_num [mulVecM, addM, regM, smulM, kronM, eyeM, gramM, matMulM,
      transposeM, diffM, flattenC, subGrid, n1wOf, n2wOf,
      Finset.sum_range_succ]
  · funext i j
    unfold reinsert unflattenC
    split <;> rfl

/-- C4 counterexample: `build_diff_matrix 0` fails (scipy `diags` raises
`ValueError` on the requested shape `(-1, 0)`) instead of returning the
empty operator, refuting "no failure modes for `n ≥ 0`". -/
theorem C4_counterexample : build_diff_matrix 0 = none := rfl

/-- C4 (amended): for every `n ≥ 1`, `build_diff_matrix n` succeeds and
returns the `(n-1) × n` operator whose row `i` has `-1` at column `i` and
`+1` at column `i+1` (for `n = 1` this is the zero-row empty operator);
for `n = 0` the underlying scipy call raises `ValueError`. -/
theorem C4_build_diff_amended {n : ℕ} (h : 1 ≤ n) :
    ∃ D, build_diff_matrix n = some D ∧ ∀ i < n - 1, ∀ j < n,
      D i j = if j = i then -1 else if j = i + 1 then 1 else 0 :=
  ⟨diffM, build_diff_matrix_pos (by omega), fun i _ j _ => rfl⟩

theorem C4_witness :
    ∃ D, build_diff_matrix 2 = some D ∧ ∀ i < 2 - 1, ∀ j < 2,
      D i j = if j = i then -1 else if j = i + 1 then 1 else 0 :=
  C4_build_diff_amended (by norm_num)

/-- C2: for every grid and every valid window, `smooth2(g, 0, 0, win)`
returns a grid equal to `g` exactly (the system reduces to `I x = f`). -/
theorem C2_identity (n1 n2 : ℕ) (g : Mat) (w : Win) (hw : ValidWin n1 n2 w) :
    (∃ res, Smooth2 n1 n2 g 0 0 w res) ∧
      ∀ res, Smooth2 n1 n2 g 0 0 w res → res = g := by
  have hw1 := validWin_n1w hw
  have hw2 := validWin_n2w hw
  constructor
  · exact smooth2_exists n1 n2 g le_rfl le_rfl w hw1 hw2
  · rintro res ⟨R, s, hR, hsol, hres⟩
    rw [build_regularization_pos hw1 hw2 0 0] at hR
    have hReq : R = regM (n1wOf n1 w) (n2wOf n2 w) 0 0 := (Option.some.inj hR).symm
    subst hReq
    have hsf : ∀ k < n1wOf n1 w * n2wOf n2 w,
        s k = flattenC (n2wOf n2 w) (subGrid g w) k :=
      isSolution_zero_coeff hsol
    rw [hres]
    funext i j
    unfold reinsert
    split
    case isTrue hin =>
      obtain ⟨hi1, hi2, hj1, hj2⟩ := hin
      have hiw : i - w.i1s < n1wOf n1 w := by unfold n1wOf; omega
      have hjw : j - w.i2s < n2wOf n2 w := by unfold n2wOf; omega
      have hidx : (i - w.i1s) * n2wOf n2 w + (j - w.i2s)
          < n1wOf n1 w * n2wOf n2 w := by
        calc (i - w.i1s) * n2wOf n2 w + (j - w.i2s)
            < (i - w.i1s) * n2wOf n2 w + n2wOf n2 w := by omega
          _ = (i - w.i1s + 1) * n2wOf n2 w := by ring
          _ ≤ n1wOf n1 w * n2wOf n2 w := Nat.mul_le_mul_right _ hiw
      unfold unflattenC
      rw [hsf _ hidx]
      unfold flattenC subGrid
      have hn2 : 0 < n2wOf n2 w := Nat.pos_of_ne_zero hw2
      rw [show (i - w.i1s) * n2wOf n2 w + (j - w.i2s)
          = n2wOf n2 w * (i - w.i1s) + (j - w.i2s) from by ring]
      rw [Nat.mul_add_div hn2, Nat.mul_add_mod, Nat.div_eq_of_lt hjw,
        Nat.mod_eq_of_lt hjw, Nat.add_zero]
      congr 1 <;> omega
    case isFalse => rfl

theorem C2_witness :
    (∃ res, Smooth2 1 1 (fun _ _ => (2:ℚ)) 0 0 ⟨0, 1, 0, 1⟩ res) ∧
      ∀ res, Smooth2 1 1 (fun _ _ => (2:ℚ)) 0 0 ⟨0, 1, 0, 1⟩ res
        → res = fun _ _ => (2:ℚ) :=
  C2_identity 1 1 (fun _ _ => 2) ⟨0, 1, 0, 1⟩ (by decide)

/-- C3: the returned grid agrees with the input at every index outside the
requested window (slice reinsertion only writes inside the clipped
window, which is contained in the requested one). -/
theorem C3_outside_window (n1 n2 : ℕ) (g : Mat) (r1 r2 : ℚ) (w : Win)
    (res : Mat) (h : Smooth2 n1 n2 g r1 r2 w res) (i j : ℕ)
    (hout : ¬ (w.i1s ≤ i ∧ i < w.i1e ∧ w.i2s ≤ j ∧ j < w.i2e)) :
    res i j = g i j := by
  obtain ⟨R, s, -, -, hres⟩ := h
  rw [hres]
  unfold reinsert
  rw [if_neg]
  rintro ⟨a, b, c, d⟩
  exact hout ⟨a, lt_of_lt_of_le b (min_le_left _ _), c,
    lt_of_lt_of_le d (min_le_left _ _)⟩

theorem C3_witness :
    Smooth2 1 1 (fun _ _ => (2:ℚ)) 0 0 ⟨0, 1, 0, 1⟩ (fun _ _ => (2:ℚ)) ∧
      (fun _ _ => (2:ℚ)) 1 1 = (fun _ _ => (2:ℚ)) 1 1 :=
  ⟨smooth2_one_one,
    C3_outside_window 1 1 _ 0 0 _ _ smooth2_one_one 1 1 (by decide)⟩

/-- The window clamped to the grid bounds. -/
def clampWin (n1 n2 : ℕ) (w : Win) : Win :=
  ⟨w.i1s, min w.i1e n1, w.i2s, min w.i2e n2⟩

/-- C10 counterexample: with `i1s = n1 = 1 < i1e = 2` the clipped slice is
empty, so the call raises (scipy `diags` on a zero-length axis) — the
window IS rejected, refuting "does not reject" for this corner. -/
theorem C10_counterexample :
    ¬ ∃ res, Smooth2 1 1 (fun _ _ => (2:ℚ)) 0 0 ⟨1, 2, 0, 1⟩ res := by
  rintro ⟨res, R, s, hR, -, -⟩
  have hnone : build_regularization (n1wOf 1 ⟨1, 2, 0, 1⟩)
      (n2wOf 1 ⟨1, 2, 0, 1⟩) 0 0 = none := by
    rw [build_regularization_none_iff]
    left
    rfl
  rw [hnone] at hR
  exact Option.noConfusion hR

/-- C10 (amended): a `smooth2` call behaves exactly as the call with the
window clamped to the grid bounds — same results (and hence also the same
failure behavior), because slice extraction and reinsertion clip. -/
theorem C10_clamped_equivalent (n1 n2 : ℕ) (g : Mat) (r1 r2 : ℚ) (w : Win)
    (res : Mat) :
    Smooth2 n1 n2 g r1 r2 w res
      ↔ Smooth2 n1 n2 g r1 r2 (clampWin n1 n2 w) res := by
  have h1w : n1wOf n1 (clampWin n1 n2 w) = n1wOf n1 w := by
    show min (min w.i1e n1) n1 - w.i1s = min w.i1e n1 - w.i1s
    omega
  have h2w : n2wOf n2 (clampWin n1 n2 w) = n2wOf n2 w := by
    show min (min w.i2e n2) n2 - w.i2s = min w.i2e n2 - w.i2s
    omega
  have hsub : subGrid g (clampWin n1 n2 w) = subGrid g w := rfl
  have hrei : reinsert n1 n2 g (clampWin n1 n2 w) = reinsert n1 n2 g w := by
    funext sm i j
    show (if w.i1s ≤ i ∧ i < min (min w.i1e n1) n1
        ∧ w.i2s ≤ j ∧ j < min (min w.i2e n2) n2 then
          sm (i - w.i1s) (j - w.i2s) else g i j) = _
    rw [show min (min w.i1e n1) n1 = min w.i1e n1 from by omega,
      show min (min w.i2e n2) n2 = min w.i2e n2 from by omega]
    rfl
  unfold Smooth2
  rw [h1w, h2w, hsub, hrei]

/-- C5 counterexample: a call with `r1 = -1 < 0` is not rejected; it runs
to completion and returns a grid (here the all-ones grid is returned
unchanged since the assembled matrix maps it to the right-hand side). -/
theorem C5_counterexample :
    Smooth2 2 2 (fun _ _ => (1:ℚ)) (-1) 0 ⟨0, 2, 0, 2⟩ (fun _ _ => (1:ℚ)) := by
  refine ⟨regM 2 2 (-1) 0, fun _ => 1,
    build_regularization_pos (by decide) (by decide) (-1) 0, ?_, ?_⟩
  · intro i hi
    have hi' : i < 4 := hi
    interval_cases i <;>
      norm_num [mulVecM, addM, regM, smulM, kronM, eyeM, gramM, matMulM,
        transposeM, diffM, flattenC, subGrid, n1wOf, n2wOf,
        Finset.sum_range_succ]
  · funext i j
    unfold reinsert unflattenC
    split <;> rfl

/-- C5 (amended): `smooth2` performs no coefficient validation; for any
coefficients of any sign (and any window with a nonempty clipped slice)
the regularization is assembled and the call proceeds to the solver — no
`InvalidParameterError` path exists in the code. -/
theorem C5_no_coefficient_validation (n1 n2 : ℕ) (w : Win) (r1 r2 : ℚ)
    (hw1 : n1wOf n1 w ≠ 0) (hw2 : n2wOf n2 w ≠ 0) :
    ∃ R, build_regularization (n1wOf n1 w) (n2wOf n2 w) r1 r2 = some R :=
  ⟨_, build_regularization_pos hw1 hw2 r1 r2⟩

theorem C5_witness :
    ∃ R, build_regularization (n1wOf 2 ⟨0, 2, 0, 2⟩) (n2wOf 2 ⟨0, 2, 0, 2⟩)
      (-3) (-7) = some R :=
  C5_no_coefficient_validation 2 2 ⟨0, 2, 0, 2⟩ (-3) (-7) (by decide) (by decide)

/-- C6 counterexample: a window with both upper bounds outside the grid
(`5 > 2`, `7 > 2`) is NOT rejected: it is silently clipped by slice
semantics and processed (here returning the grid unchanged since both
coefficients are zero). -/
theorem C6_counterexample :
    Smooth2 2 2 (fun _ _ => (1:ℚ)) 0 0 ⟨0, 5, 0, 7⟩ (fun _ _ => (1:ℚ)) := by
  refine ⟨regM 2 2 0 0, fun _ => 1,
    build_regularization_pos (by decide) (by decide) 0 0, ?_, ?_⟩
  · intro i hi
    have hi' : i < 4 := hi
    interval_cases i <;>
      norm_num [mulVecM, addM, regM, smulM, kronM, eyeM, gramM, matMulM,
        transposeM, diffM, flattenC, subGrid, n1wOf, n2wOf,
        Finset.sum_range_succ]
  · funext i j
    unfold reinsert unflattenC
    split <;> rfl

/-- C6 (amended): `smooth2` performs no window validation and raises no
typed window error.  The pipeline fails (an untyped `ValueError` from the
scipy `diags` call on a zero-length axis) exactly when the clipped slice
is empty — `min(i1e, n1) ≤ i1s` or `min(i2e, n2) ≤ i2s`; otherwise (for
nonnegative coefficients) the window, clipped, is processed and a result
is returned. -/
theorem C6_failure_characterization (n1 n2 : ℕ) (g : Mat) {r1 r2 : ℚ}
    (h1 : 0 ≤ r1) (h2 : 0 ≤ r2) (w : Win) :
    (Smooth2Fails n1 n2 w r1 r2
        ↔ min w.i1e n1 ≤ w.i1s ∨ min w.i2e n2 ≤ w.i2s) ∧
      (¬ (min w.i1e n1 ≤ w.i1s ∨ min w.i2e n2 ≤ w.i2s) →
        ∃ res, Smooth2 n1 n2 g r1 r2 w res) := by
  constructor
  · unfold Smooth2Fails
    rw [build_regularization_none_iff]
    unfold n1wOf n2wOf
    omega
  · intro hne
    refine smooth2_exists n1 n2 g h1 h2 w ?_ ?_ <;>
      first
        | (unfold n1wOf; omega)
        | (unfold n2wOf; omega)

theorem C6_witness :
    (Smooth2Fails 1 1 ⟨0, 3, 0, 3⟩ 0 0
        ↔ min 3 1 ≤ 0 ∨ min 3 1 ≤ 0) ∧
      (¬ (min 3 1 ≤ 0 ∨ min 3 1 ≤ 0) →
        ∃ res, Smooth2 1 1 (fun _ _ => (2:ℚ)) 0 0 ⟨0, 3, 0, 3⟩ res) :=
  C6_failure_characterization 1 1 (fun _ _ => 2) le_rfl le_rfl ⟨0, 3, 0, 3⟩

/-- C9: for window sizes `n1w, n2w ≥ 1` and coefficients `r1, r2 ≥ 0`, the
assembled matrix `A = I + R` (with `R` from `build_regularization`) is
symmetric and positive definite with `xᵀAx ≥ xᵀx` (all eigenvalues ≥ 1),
and `A x = f` is uniquely solvable for every right-hand side (`sysFin` is
the same matrix over `Fin` indices). -/
theorem C9_spd (n1w n2w : ℕ) {r1 r2 : ℚ} (hn1 : 1 ≤ n1w) (hn2 : 1 ≤ n2w)
    (h1 : 0 ≤ r1) (h2 : 0 ≤ r2) :
    ∃ R, build_regularization n1w n2w r1 r2 = some R ∧
      (∀ r c, addM eyeM R r c = addM eyeM R c r) ∧
      (∀ x : Vec, ∑ i ∈ Finset.range (n1w * n2w), x i ^ 2
          ≤ quadForm (n1w * n2w) (addM eyeM R) x) ∧
      (∀ f : Fin (n1w * n2w) → ℚ, ∃! v, (sysFin n1w n2w r1 r2).mulVec v = f) :=
  ⟨regM n1w n2w r1 r2, build_regularization_pos (by omega) (by omega) r1 r2,
    sysM_symm n1w n2w r1 r2, quadForm_sysM_ge n1w n2w h1 h2,
    sysFin_existsUnique n1w n2w h1 h2⟩

theorem C9_witness :
    ∃ R, build_regularization 1 1 0 0 = some R ∧
      (∀ r c, addM eyeM R r c = addM eyeM R c r) ∧
      (∀ x : Vec, ∑ i ∈ Finset.range (1 * 1), x i ^ 2
          ≤ quadForm (1 * 1) (addM eyeM R) x) ∧
      (∀ f : Fin (1 * 1) → ℚ, ∃! v, (sysFin 1 1 0 0).mulVec v = f) :=
  C9_spd 1 1 le_rfl le_rfl le_rfl le_rfl

/-- The first-difference operator of spec §3, as a Mathlib `Fin` matrix. -/
def diffSpec (n : ℕ) : Matrix (Fin (n - 1)) (Fin n) ℚ :=
  Matrix.of fun i j =>
    if (j : ℕ) = (i : ℕ) then -1 else if (j : ℕ) = (i : ℕ) + 1 then 1 else 0

/-- The regularization operator exactly as spec §3 writes it:
`R = r1·(I_{n2w} ⊗ D(n1w)ᵀD(n1w)) + r2·(D(n2w)ᵀD(n2w) ⊗ I_{n1w})`, with
Mathlib's Kronecker product on `Fin` matrices. -/
def regSpec (n1w n2w : ℕ) (r1 r2 : ℚ) :
    Matrix (Fin n2w × Fin n1w) (Fin n2w × Fin n1w) ℚ :=
  r1 • Matrix.kroneckerMap (· * ·) (1 : Matrix (Fin n2w) (Fin n2w) ℚ)
      (Matrix.transpose (diffSpec n1w) * diffSpec n1w)
    + r2 • Matrix.kroneckerMap (· * ·) (Matrix.transpose (diffSpec n2w) * diffSpec n2w)
      (1 : Matrix (Fin n1w) (Fin n1w) ℚ)

theorem gramM_eq_spec (n : ℕ) (i j : Fin n) :
    gramM n (i : ℕ) (j : ℕ) = (Matrix.transpose (diffSpec n) * diffSpec n) i j := by
  rw [Matrix.mul_apply]
  unfold gramM matMulM transposeM
  rw [← Fin.sum_univ_eq_sum_range (fun l => diffM l i * diffM l j) (n - 1)]
  exact Finset.sum_congr rfl fun k _ => rfl

theorem eyeM_fin {n : ℕ} (a b : Fin n) :
    eyeM (a : ℕ) (b : ℕ) = (1 : Matrix (Fin n) (Fin n) ℚ) a b := by
  simp [eyeM, Matrix.one_apply, Fin.val_eq_val]

/-- C8: the matrix assembled by `build_regularization` coincides with the
specification's Kronecker formula under the standard flat/pair index
correspondence `(b, i) ↦ n1w * b + i` used by `scipy.sparse.kron`. -/
theorem C8_reg_formula (n1w n2w : ℕ) (r1 r2 : ℚ) (h1 : 1 ≤ n1w)
    (h2 : 1 ≤ n2w) :
    ∃ R, build_regularization n1w n2w r1 r2 = some R ∧
      ∀ (b b' : Fin n2w) (i i' : Fin n1w),
        R (n1w * b + i) (n1w * b' + i')
          = regSpec n1w n2w r1 r2 (b, i) (b', i') := by
  refine ⟨regM n1w n2w r1 r2,
    build_regularization_pos (by omega) (by omega) r1 r2, fun b b' i i' => ?_⟩
  show addM (smulM r1 (kronM n1w eyeM (gramM n1w)))
      (smulM r2 (kronM n1w (gramM n2w) eyeM)) _ _ = _
  unfold addM smulM
  rw [kronM_apply n1w _ _ i.isLt i'.isLt, kronM_apply n1w _ _ i.isLt i'.isLt]
  unfold regSpec
  rw [Matrix.add_apply, Matrix.smul_apply, Matrix.smul_apply,
    Matrix.kroneckerMap_apply, Matrix.kroneckerMap_apply, smul_eq_mul,
    smul_eq_mul, gramM_eq_spec n1w i i', gramM_eq_spec n2w b b',
    eyeM_fin b b', eyeM_fin i i']

theorem C8_witness :
    ∃ R, build_regularization 2 2 1 1 = some R ∧
      ∀ (b b' : Fin 2) (i i' : Fin 2),
        R (2 * b + i) (2 * b' + i') = regSpec 2 2 1 1 (b, i) (b', i') :=
  C8_reg_formula 2 2 1 1 (by norm_num) (by norm_num)

/-- The 4×4 spike grid of spec §8, concrete scenario 1: all ones except a
5 at row 1, column 1. -/
def data4 : Mat := fun i j => if i = 1 ∧ j = 1 then 5 else 1

/-- The exact `spsolve` solution for scenario 1 (flat, C-order).  Because
the assembled matrix couples consecutive blocks of 4 flat indices — which
are ROWS of the C-order-flattened grid — the all-ones rows 0, 2, 3 are
fixed points and the spike row 1 (flat indices 4..7) solves the
tridiagonal system `(I + DᵀD) x = (1, 5, 1, 1)`. -/
def s4 : Vec := fun k =>
  if k = 4 then 41 / 21 else if k = 5 then 61 / 21 else
  if k = 6 then 37 / 21 else if k = 7 then 29 / 21 else 1

/-- The grid returned by `smooth2(data4, r1 = 1.0, r2 = 0.0)` (full
window): the spike is smeared along row 1, i.e. along axis 2. -/
def res4 : Mat := reinsert 4 4 data4 ⟨0, 4, 0, 4⟩ (unflattenC 4 s4)

set_option maxHeartbeats 3000000 in
/-- C1 (code-bug evaluation): on the 4×4 spike grid with `r1 = 1`,
`r2 = 0` and the full window, `smooth2` smears the spike along axis 2
(within row 1), not along axis 1 as the spec and the code's own parameter
documentation state: the entry at row 1, column 0 changes to 41/21
(columns 0, 2, 3 are NOT exactly unchanged), while column 1's other rows
stay exactly 1 (they do NOT move away from 1).  Cause: `flatten()` is
C-order (axis-2-fastest) but `kron(I2, D1ᵀD1)` assumes axis-1-fastest
blocks. -/
theorem C1_axis_swap_eval :
    Smooth2 4 4 data4 1 0 ⟨0, 4, 0, 4⟩ res4
      ∧ (∀ res, Smooth2 4 4 data4 1 0 ⟨0, 4, 0, 4⟩ res → res = res4)
      ∧ res4 1 0 = 41 / 21 ∧ res4 1 0 ≠ data4 1 0
      ∧ res4 0 1 = 1 ∧ res4 2 1 = 1 ∧ res4 3 1 = 1 := by
  have hsol : IsSolution (n1wOf 4 ⟨0, 4, 0, 4⟩ * n2wOf 4 ⟨0, 4, 0, 4⟩)
      (addM eyeM (regM 4 4 1 0))
      (flattenC (n2wOf 4 ⟨0, 4, 0, 4⟩) (subGrid data4 ⟨0, 4, 0, 4⟩)) s4 := by
    intro i hi
    have hi' : i < 16 := hi
    interval_cases i <;>
      norm_num [mulVecM, addM, regM, smulM, kronM, eyeM, gramM, matMulM,
        transposeM, diffM, flattenC, subGrid, data4, s4, n1wOf, n2wOf,
        Finset.sum_range_succ]
  refine ⟨⟨regM 4 4 1 0, s4,
      build_regularization_pos (by decide) (by decide) 1 0, hsol, rfl⟩,
    ?_, ?_, ?_, ?_, ?_, ?_⟩
  · rintro res ⟨R, s, hR, hsol', hres⟩
    rw [build_regularization_pos (by decide) (by decide) 1 0] at hR
    have hReq : R = regM (n1wOf 4 ⟨0, 4, 0, 4⟩) (n2wOf 4 ⟨0, 4, 0, 4⟩) 1 0 :=
      (Option.some.inj hR).symm
    subst hReq
    have hag : ∀ k < 16, s k = s4 k :=
      isSolution_unique (by norm_num) le_rfl hsol' hsol
    rw [hres]
    funext i j
    show (if 0 ≤ i ∧ i < min 4 4 ∧ 0 ≤ j ∧ j < min 4 4 then
        unflattenC (n2wOf 4 ⟨0, 4, 0, 4⟩) s (i - 0) (j - 0) else data4 i j)
      = res4 i j
    unfold res4 reinsert
    by_cases hin : 0 ≤ i ∧ i < min 4 4 ∧ 0 ≤ j ∧ j < min 4 4
    · rw [if_pos hin, if_pos hin]
      unfold unflattenC
      obtain ⟨-, hi4, -, hj4⟩ := hin
      have : (i - 0) * 4 + (j - 0) < 16 := by omega
      exact hag _ this
    · rw [if_neg hin, if_neg hin]
  · norm_num [res4, reinsert, unflattenC, s4]
  · norm_num [res4, reinsert, unflattenC, s4, data4]
  · norm_num [res4, reinsert, unflattenC, s4]
  · norm_num [res4, reinsert, unflattenC, s4]
  · norm_num [res4, reinsert, unflattenC, s4]

/-- Row-major (C-order) list of all entries of an `(n1, n2)` grid: the
flattening numpy applies to the full arrays inside `compute_error`. -/
def flattenGrid (n1 n2 : ℕ) (g : Mat) : List ℚ :=
  (List.range n1).flatMap fun i => (List.range n2).map fun j => g i j

/-- Sum of squares of a list: the square of `np.linalg.norm`. -/
def sumSq (l : List ℚ) : ℚ := (l.map fun q => q ^ 2).sum

/-- Outcome of `compute_error`.  numpy float division never raises: with a
zero denominator it yields `inf` (positive numerator) or `nan` (zero
numerator), emitting only a `RuntimeWarning`.  A finite result is
represented by the square of its value, since the norms are square roots
(irrational in general) and both are nonnegative, so the squared ratio
determines the value. -/
inductive ErrVal where
  | val (sq : ℚ)
  | posInf
  | nan
  deriving DecidableEq

/-- `compute_error(original, smoothed)` from `smooth2.py`:
`np.linalg.norm(original - smoothed) / np.linalg.norm(original)` over the
full `(n1, n2)` grids, in the squared representation of `ErrVal`. -/
def compute_error (n1 n2 : ℕ) (o s : Mat) : ErrVal :=
  if sumSq (flattenGrid n1 n2 o) = 0 then
    (if sumSq (flattenGrid n1 n2 fun i j => o i j - s i j) = 0 then ErrVal.nan
     else ErrVal.posInf)
  else
    ErrVal.val (sumSq (flattenGrid n1 n2 fun i j => o i j - s i j)
      / sumSq (flattenGrid n1 n2 o))

theorem sumSq_append (l1 l2 : List ℚ) :
    sumSq (l1 ++ l2) = sumSq l1 + sumSq l2 := by
  unfold sumSq
  rw [List.map_append, List.sum_append]

theorem sumSq_row (g : Mat) (i n2 : ℕ) :
    sumSq ((List.range n2).map fun j => g i j)
      = ∑ j ∈ Finset.range n2, g i j ^ 2 := by
  induction n2 with
  | zero => simp [sumSq]
  | succ m ih =>
      rw [Finset.sum_range_succ, ← ih, List.range_succ, List.map_append,
        sumSq_append]
      simp [sumSq]

/-- The list-based sum of squares of the flattened grid equals the
entrywise double sum: `compute_error` indeed aggregates over ALL entries
of the full grids. -/
theorem sumSq_flattenGrid (n1 n2 : ℕ) (g : Mat) :
    sumSq (flattenGrid n1 n2 g)
      = ∑ i ∈ Finset.range n1, ∑ j ∈ Finset.range n2, g i j ^ 2 := by
  induction n1 with
  | zero => simp [flattenGrid, sumSq]
  | succ m ih =>
      rw [Finset.sum_range_succ, ← ih]
      show sumSq ((List.range (m + 1)).flatMap
        fun i => (List.range n2).map fun j => g i j) = _
      rw [List.range_succ, List.flatMap_append, sumSq_append]
      have hsingle : ([m].flatMap fun i => (List.range n2).map fun j => g i j)
          = (List.range n2).map fun j => g m j := by simp
      rw [hsingle, sumSq_row]
      rfl

/-- C7 counterexample: `compute_error` on an all-zero original grid does
NOT raise `DivideByZeroError`; the numpy division of the nonzero
difference norm by the zero norm yields `inf` (a returned value). -/
theorem C7_counterexample :
    compute_error 2 2 (fun _ _ => 0) (fun _ _ => 1) = ErrVal.posInf := by
  norm_num [compute_error, flattenGrid, sumSq, List.range_succ]

/-- C7 (amended): `compute_error` returns the relative L2 error
`‖o − s‖₂ / ‖o‖₂` over all flattened entries of the full grids (stated
via its square, as the ratio of the two sums of squared entries), and it
never raises: on an all-zero original it returns `inf`, or `nan` when the
smoothed grid is also identical. -/
theorem C7_compute_error_amended (n1 n2 : ℕ) (o s : Mat) :
    (sumSq (flattenGrid n1 n2 o) ≠ 0 →
      compute_error n1 n2 o s = ErrVal.val
        ((∑ i ∈ Finset.range n1, ∑ j ∈ Finset.range n2, (o i j - s i j) ^ 2)
          / ∑ i ∈ Finset.range n1, ∑ j ∈ Finset.range n2, o i j ^ 2))
    ∧ (sumSq (flattenGrid n1 n2 o) = 0 →
        compute_error n1 n2 o s = ErrVal.posInf
          ∨ compute_error n1 n2 o s = ErrVal.nan) := by
  constructor
  · intro h
    unfold compute_error
    rw [if_neg h, sumSq_flattenGrid, sumSq_flattenGrid]
  · intro h
    unfold compute_error
    rw [if_pos h]
    by_cases hd : sumSq (flattenGrid n1 n2 fun i j => o i j - s i j) = 0
    · right
      rw [if_pos hd]
    · left
      rw [if_neg hd]

theorem C7_witness :
    compute_error 1 1 (fun _ _ => 3) (fun _ _ => 1) = ErrVal.val (4 / 9) := by
  have h := (C7_compute_error_amended 1 1 (fun _ _ => 3) (fun _ _ => 1)).1
    (by norm_num [flattenGrid, sumSq, List.range_succ])
  rw [h]
  norm_num

end SmoothTwo
